import Mathlib

/-!
Shallow embedding of the CodeSystemExporter of the sushi repository
(file modelled: the exporter that turns an FshCodeSystem with its ordered
rule list into a FHIR CodeSystem document inside an output package),
together with the Extension entity constructor, and proofs of the spec's
claims about them.

Representation choices, recorded once here:
* Source locations are opaque tokens (Nat).
* Caret paths, which the source keeps as strings and never inspects except
  for the literal comparison with the string count and for string
  concatenation with a concept path, are modelled structurally as lists of
  segments (field name plus optional index), which is the grammar the spec
  gives for path expressions.  The concept path string concept[i].concept[j]
  is correspondingly the list of segments named concept with literal
  indices.
* Values assigned by rules are opaque (String): the exporter passes them
  through to the external validator unexamined.
* The external collaborators (validateValueAtPath, setPropertyOnInstance,
  the fisher) are abstract function parameters of the exporter, so every
  theorem holds for all of their behaviours.
* logger.error / logger.warn / logger.info calls are modelled as a list of
  structured diagnostics threaded through the computation.
-/

namespace Sushi

abbrev SourceInfo := Nat

/-- An index qualifier on one path segment: a literal integer, a slice
name, or one of the two soft markers (append, same-as-previous). -/
inductive IndexMarker where
  | literal (n : Nat)
  | slice (s : String)
  | append
  | samePrev
deriving DecidableEq, Repr

/-- One segment of a path expression: a field name with an optional index. -/
structure PathSeg where
  name : String
  index : Option IndexMarker
deriving DecidableEq, Repr

abbrev FshPath := List PathSeg

/-- Rule values are passed through to the external validator unexamined. -/
abbrev FshValue := String

/-- Is this index one of the two soft markers? -/
def IndexMarker.isSoft : Option IndexMarker → Bool
  | some .append => true
  | some .samePrev => true
  | _ => false

/-- Does the path still contain a soft index marker? -/
def FshPath.hasSoftMarker (p : FshPath) : Bool :=
  p.any (fun s => IndexMarker.isSoft s.index)

/-- CaretValueRule as the code-system exporter consumes it: the caret path,
the value to assign, and the rule's source location. -/
structure CaretValueRule where
  caretPath : FshPath
  value : FshValue
  sourceInfo : SourceInfo
deriving DecidableEq, Repr

/-- ConceptRule: code, optional display and definition, and the ordered
list of ancestor codes (the hierarchy). -/
structure ConceptRule where
  code : String
  display : Option String
  definition : Option String
  hierarchy : List String
  sourceInfo : SourceInfo
deriving DecidableEq, Repr

/-- CodeCaretValueRule: an ordered code path down the concept forest, a
caret path relative to the located concept, and a value. -/
structure CodeCaretValueRule where
  codePath : List String
  caretPath : FshPath
  value : FshValue
  sourceInfo : SourceInfo
deriving DecidableEq, Repr

/-- The closed tagged union of rules a code system entity can carry; the
exporter partitions the list by variant.  Variants of rule kinds that the
code-system exporter filters out are collapsed into the other case. -/
inductive CsRule where
  | caret (r : CaretValueRule)
  | concept (r : ConceptRule)
  | codeCaret (r : CodeCaretValueRule)
  | other (sourceInfo : SourceInfo)
deriving DecidableEq, Repr

/-- FshCodeSystem: the source entity, with its name, id, optional title and
description, ordered rule list and source location. -/
structure FshCodeSystem where
  name : String
  id : String
  title : Option String
  description : Option String
  rules : List CsRule
  sourceInfo : SourceInfo
deriving DecidableEq, Repr

/-- CodeSystemConcept: code, optional display/definition, and an optional
child list (the source leaves the child array undefined until the first
child is about to be inserted, so absence and emptiness are distinct). -/
inductive CodeSystemConcept where
  | mk (code : String) (display : Option String) (definition : Option String)
      (concept : Option (List CodeSystemConcept))

def CodeSystemConcept.code : CodeSystemConcept → String
  | .mk c _ _ _ => c

def CodeSystemConcept.display : CodeSystemConcept → Option String
  | .mk _ d _ _ => d

def CodeSystemConcept.definition : CodeSystemConcept → Option String
  | .mk _ _ d _ => d

def CodeSystemConcept.concept : CodeSystemConcept → Option (List CodeSystemConcept)
  | .mk _ _ _ ch => ch

/-- The concept child list with an undefined list read as empty
(the source's idiom concept ?? []). -/
def CodeSystemConcept.childrenOrEmpty (c : CodeSystemConcept) : List CodeSystemConcept :=
  c.concept.getD []

/-- The in-memory CodeSystem document, restricted to the fields this
exporter reads or writes. -/
structure CodeSystem where
  name : Option String
  id : Option String
  title : Option String
  description : Option String
  version : Option String
  url : Option String
  content : Option String
  count : Option Nat
  concept : Option (List CodeSystemConcept)

/-- Modelled from the spec: the constructor of the FHIR CodeSystem document
class is not part of the sources in scope; the spec's count-reconciliation
section says reconciliation runs when the document declares itself
complete, which is the compiler's default content, so the fresh document
starts with content complete and every other field unset. -/
def CodeSystem.init : CodeSystem :=
  { name := none, id := none, title := none, description := none
    version := none, url := none, content := some "complete"
    count := none, concept := none }

mutual

/-- countConcepts from the source: an undefined list counts 0; a list
counts its length plus the recursive counts of every child list. -/
def countConcepts : Option (List CodeSystemConcept) → Nat
  | none => 0
  | some cs => cs.length + countConceptsList cs

/-- The sum of countConcepts over the children of each concept in a list
(the map/reduce in the source). -/
def countConceptsList : List CodeSystemConcept → Nat
  | [] => 0
  | .mk _ _ _ ch :: rest => countConcepts ch + countConceptsList rest

end

/-- One level of the ancestor walk of setConcepts: find the first concept
whose code is the sought ancestor code; when found, run the continuation
on its child list (absent read as empty, exactly the in-place
normalization of the source) and store the continuation's updated list as
the found concept's children; when the level is exhausted, fail with the
missing ancestor code. -/
def insertLevel (f : List CodeSystemConcept → List CodeSystemConcept × Option String)
    (anc : String) : List CodeSystemConcept → List CodeSystemConcept × Option String
  | [] => ([], some anc)
  | c :: cs =>
    if c.code = anc then
      let res := f c.childrenOrEmpty
      (CodeSystemConcept.mk c.code c.display c.definition (some res.1) :: cs, res.2)
    else
      let res := insertLevel f anc cs
      (c :: res.1, res.2)

/-- insertConcept: the loop body of setConcepts.  Walks the hierarchy of
ancestor codes from the given container and appends the new concept at
the located level.  Returns the updated container together with the first
missing ancestor code, if any (none means the insertion succeeded).  On
failure the partially normalized container is kept, as the source mutates
in place. -/
def insertConcept : List String → CodeSystemConcept → List CodeSystemConcept →
    List CodeSystemConcept × Option String
  | [], newC, container => (container ++ [newC], none)
  | anc :: rest, newC, container => insertLevel (insertConcept rest newC) anc container

/-- Walk a hierarchy of codes down a forest, as an observer: at each level
find the first concept with the given code and descend into its (possibly
absent, then empty) child list.  Returns the child list at the end of the
walk. -/
def descend : List String → List CodeSystemConcept → Option (List CodeSystemConcept)
  | [], f => some f
  | a :: rest, f =>
    match f.find? (fun c => c.code == a) with
    | none => none
    | some c => descend rest c.childrenOrEmpty

/-- The pre-order list of codes of a forest, used to state that a failed
insertion adds no concept anywhere. -/
def flatCodes : List CodeSystemConcept → List String
  | [] => []
  | .mk code _ _ none :: rest => code :: flatCodes rest
  | .mk code _ _ (some l) :: rest => code :: (flatCodes l ++ flatCodes rest)

/-- findIndexed: index-tracking version of Array.findIndex plus the element
found, over a concept list. -/
def findIndexed (code : String) : List CodeSystemConcept → Option (Nat × CodeSystemConcept)
  | [] => none
  | c :: cs =>
    if c.code = code then some (0, c)
    else (findIndexed code cs).map (fun p => (p.1 + 1, p.2))

/-- The index-collecting loop of findConceptPath: for each code of the code
path, the position of the first concept with that code at the current
level, descending into its child list. -/
def findConceptIndices : List String → List CodeSystemConcept → Option (List Nat)
  | [], _ => some []
  | step :: rest, conceptList =>
    match findIndexed step conceptList with
    | none => none
    | some (i, c) => (findConceptIndices rest c.childrenOrEmpty).map (fun l => i :: l)

/-- The rendering of a list of concept indices as the path
concept[i].concept[j]... (structurally: segments named concept with
literal indices). -/
def conceptSegs (idxs : List Nat) : FshPath :=
  idxs.map (fun i => PathSeg.mk "concept" (some (IndexMarker.literal i)))

/-- Decidable check that a list of indices is exactly what walking a code
path down a forest by first-match-at-each-level yields: at every level the
element at the recorded index carries the code and no earlier element
does. -/
def locatesOk : List String → List Nat → List CodeSystemConcept → Bool
  | [], [], _ => true
  | code :: codes, i :: idxs, f =>
    match f[i]? with
    | some c =>
      c.code == code && (f.take i).all (fun d => !(d.code == code))
        && locatesOk codes idxs c.childrenOrEmpty
    | none => false
  | _, _, _ => false

/-- Severity of a logged diagnostic. -/
inductive Severity where
  | error
  | warning
  | info
deriving DecidableEq, Repr

/-- The errors the exporter raises or catches: an unresolvable concept
path (naming the code path), an error raised by the external path
validator, and a failed schema lookup for the entity's base type. -/
inductive ExportError where
  | cannotResolvePath (codes : List String)
  | validationError (msg : String)
  | schemaMissing
deriving DecidableEq, Repr

/-- The structured payload of one logger call. -/
inductive DiagKind where
  | missingAncestor (ancestor conceptCode : String)
  | ruleError (e : ExportError)
  | duplicateId (id : Option String)
  | countMismatch (specified actual : Option Nat)
  | entityError (e : ExportError)
  | convertedInfo (n : Nat)
deriving DecidableEq, Repr

/-- One diagnostic: severity, payload, and the source location passed to
the logger (the run-level info log passes none). -/
structure Diagnostic where
  severity : Severity
  kind : DiagKind
  source : Option SourceInfo
deriving DecidableEq, Repr

/-- The observable processing trace of one entity export: the soft-index
pre-pass over the root caret rules, each path handed to the external path
validator from a root caret rule, each concept rule processed, and each
path handed to the validator from a code caret rule. -/
inductive ExportEvent where
  | softResolved (rules : List CaretValueRule)
  | caretApplied (path : FshPath)
  | conceptApplied (code : String)
  | codeCaretApplied (path : FshPath)
deriving DecidableEq, Repr

/-- The state threaded through the phases of one entity export: the
document under construction, the diagnostics logged so far, and the trace
of events so far. -/
structure ExportState where
  doc : CodeSystem
  diags : List Diagnostic
  events : List ExportEvent

/-- The external path resolver/validator bundled with the schema fetched
for the entity's base type: validateValueAtPath takes a caret path and a
candidate value and either fails or returns the coerced value with the
resolved path parts.  Abstract: every property proved below holds for all
of its behaviours. -/
structure StructureDefinition where
  validateValueAtPath : FshPath → FshValue → Except ExportError (FshValue × FshPath)

/-- The exporter's external collaborators and configuration: the schema
lookup result for the CodeSystem resource type (none models a failed
lookup, which the source surfaces as an exception), the external document
mutator setPropertyOnInstance, and the build configuration's version and
canonical url. -/
structure ExporterCtx where
  fisher : Option StructureDefinition
  setProp : CodeSystem → FshPath → FshValue → CodeSystem
  version : Option String
  canonical : String

/-- The output package, restricted to its code system partition. -/
structure Package where
  codeSystems : List CodeSystem

/-- JS truthiness of an optional string: absent and empty are falsy. -/
def truthyStr : Option String → Bool
  | none => false
  | some s => s ≠ ""

/-- setMetadata from the source: name and id from the definition, title
and description only when truthy, version copied from configuration, url
derived from the canonical root and the id. -/
def setMetadata (cs : CodeSystem) (fsh : FshCodeSystem) (ctx : ExporterCtx) : CodeSystem :=
  { cs with
    name := some fsh.name
    id := some fsh.id
    title := if truthyStr fsh.title then fsh.title else cs.title
    description := if truthyStr fsh.description then fsh.description else cs.description
    version := ctx.version
    url := some (ctx.canonical ++ "/CodeSystem/" ++ fsh.id) }

/-- Counter lookup for the soft-index resolver: the key is the normalized
path up to the indexed segment (the already resolved preceding segments
plus the segment's field name). -/
def ctrLookup (m : List ((FshPath × String) × Nat)) (k : FshPath × String) : Option Nat :=
  (m.find? (fun e => e.1 == k)).map (fun e => e.2)

/-- Counter update for the soft-index resolver. -/
def ctrSet (m : List ((FshPath × String) × Nat)) (k : FshPath × String) (v : Nat) :
    List ((FshPath × String) × Nat) :=
  match m with
  | [] => [(k, v)]
  | e :: rest => if e.1 == k then (k, v) :: rest else e :: ctrSet rest k v

/-- Modelled from the spec: the soft-index resolver (resolveSoftIndexing in
the utils module) is not among the sources in scope.  Per the spec, it
scans segments in order keeping a map from normalized path-prefix to the
last assigned index; an append marker becomes last+1 (0 if unseen) and
updates the map; a same-as-previous marker becomes the last assigned index
for its prefix.  The spec leaves the recovery for a same-as-previous
marker with no prior assignment unspecified; this model resolves such a
marker to 0. -/
def resolveSoftSegs (ctr : List ((FshPath × String) × Nat)) (done : FshPath) :
    FshPath → List ((FshPath × String) × Nat) × FshPath
  | [] => (ctr, done.reverse)
  | seg :: rest =>
    match seg.index with
    | some .append =>
      let k := (done.reverse, seg.name)
      let n := match ctrLookup ctr k with
        | some v => v + 1
        | none => 0
      resolveSoftSegs (ctrSet ctr k n) (PathSeg.mk seg.name (some (.literal n)) :: done) rest
    | some .samePrev =>
      let k := (done.reverse, seg.name)
      let n := (ctrLookup ctr k).getD 0
      resolveSoftSegs ctr (PathSeg.mk seg.name (some (.literal n)) :: done) rest
    | some (.literal n) => resolveSoftSegs ctr (PathSeg.mk seg.name (some (.literal n)) :: done) rest
    | some (.slice s) => resolveSoftSegs ctr (PathSeg.mk seg.name (some (.slice s)) :: done) rest
    | none => resolveSoftSegs ctr (PathSeg.mk seg.name none :: done) rest

/-- Modelled from the spec: the rule-list pass of the soft-index resolver,
threading the counter map across the whole list in source order. -/
def resolveSoftRules (ctr : List ((FshPath × String) × Nat)) :
    List CaretValueRule → List CaretValueRule
  | [] => []
  | r :: rest =>
    let res := resolveSoftSegs ctr [] r.caretPath
    { r with caretPath := res.2 } :: resolveSoftRules res.1 rest

/-- Modelled from the spec: resolveSoftIndexing over a rule list, with a
fresh counter map per call (reset per entity). -/
def resolveSoftIndexing (rules : List CaretValueRule) : List CaretValueRule :=
  resolveSoftRules [] rules

/-- The loop body of setCaretRules: record the resolution request, hand
path and value to the external validator, on success mutate the document
through the external setter, on failure log the error with the rule's
source location and continue. -/
def caretStep (sp : CodeSystem → FshPath → FshValue → CodeSystem)
    (sd : StructureDefinition) (st : ExportState) (r : CaretValueRule) : ExportState :=
  let st := { st with events := st.events ++ [ExportEvent.caretApplied r.caretPath] }
  match sd.validateValueAtPath r.caretPath r.value with
  | .ok res => { st with doc := sp st.doc res.2 res.1 }
  | .error e =>
    { st with diags := st.diags ++ [⟨Severity.error, DiagKind.ruleError e, some r.sourceInfo⟩] }

/-- setCaretRules from the source: soft-index resolution of the rule list,
then each rule applied in order with per-rule error recovery. -/
def setCaretRules (sp : CodeSystem → FshPath → FshValue → CodeSystem)
    (sd : StructureDefinition) (st : ExportState) (rules : List CaretValueRule) : ExportState :=
  let resolved := resolveSoftIndexing rules
  List.foldl (caretStep sp sd)
    { st with events := st.events ++ [ExportEvent.softResolved resolved] } resolved

/-- The concept node a ConceptRule builds: code, display and definition
when present, and no child list yet. -/
def newConceptOf (r : ConceptRule) : CodeSystemConcept :=
  CodeSystemConcept.mk r.code r.display r.definition none

/-- The loop body of setConcepts: record the rule, walk its hierarchy via
insertConcept; on a missing ancestor log the error with the rule's source
location and keep the (normalized) forest, otherwise keep the forest with
the concept appended. -/
def conceptStep (st : ExportState) (r : ConceptRule) : ExportState :=
  let st := { st with events := st.events ++ [ExportEvent.conceptApplied r.code] }
  let res := insertConcept r.hierarchy (newConceptOf r) (st.doc.concept.getD [])
  match res.2 with
  | none => { st with doc := { st.doc with concept := some res.1 } }
  | some anc =>
    { st with
      doc := { st.doc with concept := some res.1 }
      diags := st.diags ++
        [⟨Severity.error, DiagKind.missingAncestor anc r.code, some r.sourceInfo⟩] }

/-- setConcepts from the source: only when the concept rule list is
nonempty, initialize the document's concept array to empty and process
every rule in order. -/
def setConcepts (st : ExportState) (rules : List ConceptRule) : ExportState :=
  if rules.length > 0 then
    List.foldl conceptStep { st with doc := { st.doc with concept := some [] } } rules
  else st

/-- findConceptPath from the source: translate a code path into the
concept[i].concept[j]... document path, or raise the cannot-resolve-path
error naming the code path. -/
def findConceptPath (cs : CodeSystem) (codePath : List String) : Except ExportError FshPath :=
  match findConceptIndices codePath (cs.concept.getD []) with
  | none => Except.error (ExportError.cannotResolvePath codePath)
  | some idxs => Except.ok (conceptSegs idxs)

/-- The loop body of setCodeCaretRules: translate the code path; on
failure log the error with the rule's source location; on success record
the resolution request for the translated path prepended to the rule's
caret path, validate there and mutate on success, logging a validation
failure with the rule's source location. -/
def codeCaretStep (sp : CodeSystem → FshPath → FshValue → CodeSystem)
    (sd : StructureDefinition) (st : ExportState) (r : CodeCaretValueRule) : ExportState :=
  match findConceptPath st.doc r.codePath with
  | .error e =>
    { st with diags := st.diags ++ [⟨Severity.error, DiagKind.ruleError e, some r.sourceInfo⟩] }
  | .ok conceptPath =>
    let full := conceptPath ++ r.caretPath
    let st := { st with events := st.events ++ [ExportEvent.codeCaretApplied full] }
    match sd.validateValueAtPath full r.value with
    | .ok res => { st with doc := sp st.doc res.2 res.1 }
    | .error e =>
      { st with diags := st.diags ++ [⟨Severity.error, DiagKind.ruleError e, some r.sourceInfo⟩] }

/-- setCodeCaretRules from the source: each code caret rule applied in
order with per-rule error recovery. -/
def setCodeCaretRules (sp : CodeSystem → FshPath → FshValue → CodeSystem)
    (sd : StructureDefinition) (st : ExportState) (rules : List CodeCaretValueRule) :
    ExportState :=
  List.foldl (codeCaretStep sp sd) st rules

/-- The JS idiom countConcepts(...) or undefined: a zero count becomes
absent. -/
def optCount (n : Nat) : Option Nat :=
  if n = 0 then none else some n

/-- The caret path that denotes the document's count element. -/
def countPath : FshPath := [PathSeg.mk "count" none]

/-- The source location attached to a count-mismatch warning: the source
location of the first caret rule on count, else the definition's own. -/
def countRuleSource (fsh : FshCodeSystem) : SourceInfo :=
  match fsh.rules.find? (fun r =>
    match r with
    | CsRule.caret cr => cr.caretPath == countPath
    | _ => false) with
  | some (CsRule.caret cr) => cr.sourceInfo
  | _ => fsh.sourceInfo

/-- updateCount from the source: only when content is complete; when no
count was set and the derived count is present, write it; otherwise when
the set count differs from the derived count, log a warning and change
nothing. -/
def updateCount (cs : CodeSystem) (fsh : FshCodeSystem) : CodeSystem × List Diagnostic :=
  if cs.content = some "complete" then
    let actualCount := optCount (countConcepts cs.concept)
    if cs.count.isNone && actualCount.isSome then
      ({ cs with count := actualCount }, [])
    else if cs.count ≠ actualCount then
      (cs, [⟨Severity.warning, DiagKind.countMismatch cs.count actualCount,
             some (countRuleSource fsh)⟩])
    else (cs, [])
  else (cs, [])

/-- Modelled from the spec: insert-rule expansion is an external pass that
splices rule-set fragments into the rule list before the core processes
it; the core assumes no fragment references remain, so over the rule
variants modelled here the pass is the identity. -/
def applyInsertRules (fsh : FshCodeSystem) : FshCodeSystem := fsh

/-- The CaretValueRule subset of an entity's rules, in source order. -/
def caretValueRules (fsh : FshCodeSystem) : List CaretValueRule :=
  fsh.rules.filterMap (fun r =>
    match r with
    | CsRule.caret cr => some cr
    | _ => none)

/-- The ConceptRule subset of an entity's rules, in source order. -/
def conceptRules (fsh : FshCodeSystem) : List ConceptRule :=
  fsh.rules.filterMap (fun r =>
    match r with
    | CsRule.concept cr => some cr
    | _ => none)

/-- The CodeCaretValueRule subset of an entity's rules, in source order. -/
def codeCaretRules (fsh : FshCodeSystem) : List CodeCaretValueRule :=
  fsh.rules.filterMap (fun r =>
    match r with
    | CsRule.codeCaret cr => some cr
    | _ => none)

/-- The result of one entity export: the updated package, the diagnostics
logged during the export, the event trace, and the returned document
(none when the export returned early on a duplicate name). -/
structure ExportResult where
  pkg : Package
  diags : List Diagnostic
  events : List ExportEvent
  doc : Option CodeSystem

/-- exportCodeSystem from the source.  A duplicate name returns early with
nothing created, appended or logged.  Otherwise: metadata, insert-rule
expansion, schema lookup (whose failure propagates as an exception,
modelled as the error of the Except), caret rules, concept rules, code
caret rules, the duplicate-id check, count reconciliation, and the push
onto the package. -/
def exportCodeSystem (ctx : ExporterCtx) (pkg : Package) (fshDefinition : FshCodeSystem) :
    Except ExportError ExportResult :=
  if pkg.codeSystems.any (fun cs => cs.name == some fshDefinition.name) then
    Except.ok ⟨pkg, [], [], none⟩
  else
    let codeSystem := setMetadata CodeSystem.init fshDefinition ctx
    let fsh := applyInsertRules fshDefinition
    match ctx.fisher with
    | none => Except.error ExportError.schemaMissing
    | some csStructureDefinition =>
      let st : ExportState := ⟨codeSystem, [], []⟩
      let st := setCaretRules ctx.setProp csStructureDefinition st (caretValueRules fsh)
      let st := setConcepts st (conceptRules fsh)
      let st := setCodeCaretRules ctx.setProp csStructureDefinition st (codeCaretRules fsh)
      let st :=
        if pkg.codeSystems.any (fun cs => st.doc.id == cs.id) then
          { st with diags := st.diags ++
              [⟨Severity.error, DiagKind.duplicateId st.doc.id, some fsh.sourceInfo⟩] }
        else st
      let res := updateCount st.doc fsh
      Except.ok ⟨⟨pkg.codeSystems ++ [res.1]⟩, st.diags ++ res.2, st.events, some res.1⟩

/-- The run-level loop body: one entity exported against the accumulated
package, its diagnostics appended; an exception from the entity's export
is caught, logged with the entity's source location, and the loop
proceeds. -/
def exportLoop (ctx : ExporterCtx) :
    Package × List Diagnostic → List FshCodeSystem → Package × List Diagnostic
  | acc, [] => acc
  | acc, fsh :: rest =>
    match exportCodeSystem ctx acc.1 fsh with
    | .ok r => exportLoop ctx (r.pkg, acc.2 ++ r.diags) rest
    | .error e =>
      exportLoop ctx
        (acc.1, acc.2 ++ [⟨Severity.error, DiagKind.entityError e, some fsh.sourceInfo⟩]) rest

/-- The export method of the source (named exportAll here because export
is a reserved word): every code system of the tank exported in order, and
one info log when at least one was present. -/
def exportAll (ctx : ExporterCtx) (codeSystems : List FshCodeSystem) (pkg : Package) :
    Package × List Diagnostic :=
  let res := exportLoop ctx (pkg, []) codeSystems
  if codeSystems.length > 0 then
    (res.1, res.2 ++ [⟨Severity.info, DiagKind.convertedInfo codeSystems.length, none⟩])
  else res

/-- A structure-definition rule of an Extension entity, opaque to the
constructor under verification. -/
abbrev SdRule := Nat

/-- The Extension entity: name, id, parent, optional title and
description, optional mixin list, and rules. -/
structure Extension where
  name : String
  id : String
  parent : String
  title : Option String
  description : Option String
  mixins : Option (List String)
  rules : List SdRule
deriving DecidableEq, Repr

/-- The Extension constructor from the source: id initialized to the name,
parent initialized to Extension, mixins and rules initialized empty,
title and description left unset. -/
def Extension.create (name : String) : Extension :=
  { name := name, id := name, parent := "Extension", title := none
    description := none, mixins := some [], rules := [] }

/-- Events of the caret-rule phase: the soft-index pre-pass and root caret
path resolution requests. -/
def isCaretPhaseEvent : ExportEvent → Bool
  | .softResolved _ => true
  | .caretApplied _ => true
  | _ => false

/-- Events of the concept phase. -/
def isConceptEvent : ExportEvent → Bool
  | .conceptApplied _ => true
  | _ => false

/-- Events of the code-caret phase. -/
def isCodeCaretEvent : ExportEvent → Bool
  | .codeCaretApplied _ => true
  | _ => false

/-- The paths handed to the external path resolver during an export, in
order. -/
def resolutionRequestPaths (evs : List ExportEvent) : List FshPath :=
  evs.filterMap (fun ev =>
    match ev with
    | ExportEvent.caretApplied p => some p
    | ExportEvent.codeCaretApplied p => some p
    | _ => none)

/-- The event trace of an export outcome (empty when the export raised). -/
def eventsOfResult : Except ExportError ExportResult → List ExportEvent
  | .ok r => r.events
  | .error _ => []

/-- Is a diagnostic the duplicate-id diagnostic? -/
def isDuplicateIdDiag (d : Diagnostic) : Bool :=
  match d.kind with
  | DiagKind.duplicateId _ => true
  | _ => false

/-! Concrete fixtures used by the witness and counterexample theorems. -/

/-- A validator that accepts every path, echoing path and value. -/
def sdIdW : StructureDefinition := ⟨fun p v => Except.ok (v, p)⟩

/-- A validator that rejects every path. -/
def sdFailW : StructureDefinition := ⟨fun _ _ => Except.error (ExportError.validationError "bad value")⟩

/-- A context with a present schema and an inert document mutator. -/
def ctxW : ExporterCtx := ⟨some sdIdW, fun d _ _ => d, some "1.0.0", "http://example.org"⟩

/-- A context whose validator rejects every path. -/
def ctxFailW : ExporterCtx := ⟨some sdFailW, fun d _ _ => d, none, "http://example.org"⟩

/-- A context whose schema lookup fails. -/
def ctxNoSchemaW : ExporterCtx := ⟨none, fun d _ _ => d, none, "http://example.org"⟩

/-- A three-concept forest with one nested concept. -/
def forest3W : List CodeSystemConcept :=
  [CodeSystemConcept.mk "a" none none (some [CodeSystemConcept.mk "b" none none none]),
   CodeSystemConcept.mk "c" none none none]

/-- A complete document holding three concepts and no explicit count. -/
def csNoCountW : CodeSystem := { CodeSystem.init with concept := some forest3W }

/-- The same document with an explicit count of 5. -/
def csCount5W : CodeSystem := { csNoCountW with count := some 5 }

/-- A rule-free entity. -/
def fshPlainW : FshCodeSystem := ⟨"CSW", "csw", none, none, [], 20⟩

/-- Concept rule fixtures: a root concept, a child of a, a concept naming
a missing ancestor, and a second root concept. -/
def rAW : ConceptRule := ⟨"a", none, none, [], 1⟩

def rChildW : ConceptRule := ⟨"b", some "B", none, ["a"], 2⟩

def rBadW : ConceptRule := ⟨"x", none, none, ["zz"], 4⟩

def rCW : ConceptRule := ⟨"c", none, none, [], 3⟩

/-- An empty export state over a fresh document. -/
def stW : ExportState := ⟨CodeSystem.init, [], []⟩

/-- The state after processing the root concept rule a. -/
def st1W : ExportState :=
  List.foldl conceptStep { stW with doc := { stW.doc with concept := some [] } } [rAW]

/-- The forest holding the single root concept a. -/
def forestAW : List CodeSystemConcept := [CodeSystemConcept.mk "a" none none none]

/-- The forest holding a with the single child b. -/
def forestABW : List CodeSystemConcept :=
  [CodeSystemConcept.mk "a" none none (some [CodeSystemConcept.mk "b" (some "B") none none])]

/-- Entities for the duplicate-name and duplicate-id scenarios. -/
def eW1 : FshCodeSystem := ⟨"CS1", "cs-1", none, none, [], 10⟩

def eW2 : FshCodeSystem := ⟨"CS2", "cs-1", none, none, [], 11⟩

def eW1dup : FshCodeSystem := ⟨"CS1", "other", none, none, [], 12⟩

/-- The package holding the export of eW1 alone. -/
def pkgW : Package := ⟨[setMetadata CodeSystem.init eW1 ctxW]⟩

/-- An entity whose code caret rule carries an append soft marker in its
caret path. -/
def eSoftW : FshCodeSystem :=
  ⟨"CS7", "cs7", none, none,
    [CsRule.concept ⟨"a", none, none, [], 1⟩,
     CsRule.codeCaret ⟨["a"], [⟨"designation", some IndexMarker.append⟩, ⟨"value", none⟩], "v", 2⟩],
    0⟩

/-- A code caret rule over a code path that does not resolve. -/
def ccBadW : CodeCaretValueRule := ⟨["q"], [⟨"display", none⟩], "v", 6⟩

/-- A code caret rule over the code path a b. -/
def ccOkW : CodeCaretValueRule := ⟨["a", "b"], [⟨"display", none⟩], "v", 7⟩

/-- A state over the three-concept forest. -/
def stForestW : ExportState := ⟨csNoCountW, [], []⟩

/-- A caret rule fixture. -/
def crW : CaretValueRule := ⟨[⟨"publisher", none⟩], "me", 8⟩

/-- A caret rule whose path carries an append soft marker. -/
def crSoftW : CaretValueRule := ⟨[⟨"designation", some IndexMarker.append⟩, ⟨"value", none⟩], "v", 9⟩

/-- A document mutator that realizes assignments to the id and content
elements (one possible behaviour of the external setPropertyOnInstance)
and ignores other paths. -/
def spIdContentW : CodeSystem → FshPath → FshValue → CodeSystem := fun d p v =>
  if p == [PathSeg.mk "id" none] then { d with id := some v }
  else if p == [PathSeg.mk "content" none] then { d with content := some v }
  else d

/-- A context whose validator echoes and whose mutator writes id and
content. -/
def ctxIdW : ExporterCtx := ⟨some sdIdW, spIdContentW, none, "http://example.org"⟩

/-- A caret rule setting content to fragment. -/
def crContentW : CaretValueRule := ⟨[PathSeg.mk "content" none], "fragment", 13⟩

/-- A caret rule rewriting the document id to other. -/
def crIdOtherW : CaretValueRule := ⟨[PathSeg.mk "id" none], "other", 14⟩

/-- Two entities with different names and identical declared ids; the
later one's caret rules rewrite the document id before the duplicate-id
check. -/
def eI1 : FshCodeSystem := ⟨"CSA", "same", none, none, [CsRule.caret crContentW], 15⟩

def eI2 : FshCodeSystem :=
  ⟨"CSB", "same", none, none, [CsRule.caret crContentW, CsRule.caret crIdOtherW], 16⟩

/-! Theorems. -/

/-- C10: for every name string, constructing an Extension entity with that
name yields an entity whose id equals the name, whose parent is the string
Extension, and whose mixins and rules lists are empty. -/
theorem extension_constructor_defaults (name : String) :
    (Extension.create name).id = name ∧
    (Extension.create name).parent = "Extension" ∧
    (Extension.create name).mixins = some [] ∧
    (Extension.create name).rules = [] :=
  ⟨rfl, rfl, rfl, rfl⟩

/-- C1: count reconciliation runs only for a document whose content is
complete; with no explicit count and at least one concept the count
becomes the recursively computed total; an explicit count that differs
from the computed total is left unchanged and exactly one mismatch
diagnostic is emitted. -/
theorem updateCount_spec (cs : CodeSystem) (fsh : FshCodeSystem) :
    (cs.content ≠ some "complete" → updateCount cs fsh = (cs, [])) ∧
    (cs.content = some "complete" → cs.count = none → 0 < countConcepts cs.concept →
      updateCount cs fsh = ({ cs with count := some (countConcepts cs.concept) }, [])) ∧
    (∀ n, cs.content = some "complete" → cs.count = some n → n ≠ countConcepts cs.concept →
      updateCount cs fsh =
        (cs, [⟨Severity.warning,
               DiagKind.countMismatch (some n) (optCount (countConcepts cs.concept)),
               some (countRuleSource fsh)⟩])) := by
  refine ⟨?_, ?_, ?_⟩
  · intro h
    simp [updateCount, h]
  · intro hc hn hpos
    have hopt : optCount (countConcepts cs.concept) = some (countConcepts cs.concept) := by
      simp [optCount, Nat.pos_iff_ne_zero.mp hpos]
    simp [updateCount, hc, hn, hopt]
  · intro n hc hn hne
    have h1 : cs.count.isNone = false := by simp [hn]
    by_cases h0 : countConcepts cs.concept = 0
    · have hopt : optCount (countConcepts cs.concept) = none := by simp [optCount, h0]
      simp [updateCount, hc, hn, h1, hopt]
    · have hopt : optCount (countConcepts cs.concept) = some (countConcepts cs.concept) := by
        simp [optCount, h0]
      simp [updateCount, hc, hn, h1, hopt, hne]

/-- Witness for C1: the spec's two scenarios; with content complete, no
explicit count and 3 concepts (one nested) the final count is 3 with no
diagnostic; with an explicit count of 5 and 3 actual concepts the count
stays 5 and exactly one mismatch warning is emitted. -/
theorem updateCount_spec_witness :
    updateCount csNoCountW fshPlainW = ({ csNoCountW with count := some 3 }, []) ∧
    updateCount csCount5W fshPlainW =
      (csCount5W, [⟨Severity.warning, DiagKind.countMismatch (some 5) (some 3), some 20⟩]) := by
  have h3 : countConcepts csNoCountW.concept = 3 := by
    simp [csNoCountW, CodeSystem.init, forest3W, countConcepts, countConceptsList]
  constructor
  · have h := (updateCount_spec csNoCountW fshPlainW).2.1 rfl rfl (by rw [h3]; decide)
    rw [h3] at h
    exact h
  · have h5 : countConcepts csCount5W.concept = 3 := h3
    have h := (updateCount_spec csCount5W fshPlainW).2.2 5 rfl rfl (by rw [h5]; decide)
    rw [h5] at h
    simpa [optCount, countRuleSource, fshPlainW] using h

/-- C4: a second entity sharing the name of an already exported code
system is not exported: the call returns early with the package unchanged,
no diagnostic and no document. -/
theorem export_duplicate_name (ctx : ExporterCtx) (pkg : Package) (fsh : FshCodeSystem)
    (h : ∃ cs ∈ pkg.codeSystems, cs.name = some fsh.name) :
    exportCodeSystem ctx pkg fsh = Except.ok ⟨pkg, [], [], none⟩ := by
  obtain ⟨cs, hmem, hname⟩ := h
  have hany : pkg.codeSystems.any (fun cs => cs.name == some fsh.name) = true := by
    rw [List.any_eq_true]
    exact ⟨cs, hmem, by simp [hname]⟩
  simp [exportCodeSystem, hany]

/-- Witness for C4: a package already holding a code system named CS1 and
a second entity named CS1 with a different id. -/
theorem export_duplicate_name_witness :
    exportCodeSystem ctxW pkgW eW1dup = Except.ok ⟨pkgW, [], [], none⟩ :=
  export_duplicate_name ctxW pkgW eW1dup
    ⟨setMetadata CodeSystem.init eW1 ctxW, by simp [pkgW], rfl⟩

/-- findIndexed finds the first element satisfying the code, together with
its position: the element at the returned index has the sought code and no
earlier element does. -/
theorem findIndexed_some (code : String) :
    ∀ (f : List CodeSystemConcept) (i : Nat) (c : CodeSystemConcept),
      findIndexed code f = some (i, c) →
      f[i]? = some c ∧ c.code = code ∧ ∀ d ∈ f.take i, ¬ d.code = code := by
  intro f
  induction f with
  | nil => intro i c h; simp [findIndexed] at h
  | cons x xs ih =>
    intro i c h
    by_cases hx : x.code = code
    · rw [findIndexed, if_pos hx] at h
      simp only [Option.some.injEq, Prod.mk.injEq] at h
      obtain ⟨hi, hc⟩ := h
      subst hi; subst hc
      exact ⟨by simp, hx, by simp⟩
    · rw [findIndexed, if_neg hx] at h
      rw [Option.map_eq_some'] at h
      obtain ⟨p, hp, hpe⟩ := h
      simp only [Prod.mk.injEq] at hpe
      obtain ⟨hi, hc⟩ := hpe
      subst hi; subst hc
      obtain ⟨hget, hcode, htake⟩ := ih p.1 p.2 hp
      refine ⟨by simpa using hget, hcode, ?_⟩
      intro d hd
      rw [List.take_succ_cons] at hd
      rcases List.mem_cons.mp hd with hdx | hdt
      · subst hdx; exact hx
      · exact htake d hdt

/-- The indices findConceptIndices returns do locate the code path: at
each level the element at the recorded index is the first one carrying
the code. -/
theorem findConceptIndices_locatesOk :
    ∀ (codes : List String) (f : List CodeSystemConcept) (idxs : List Nat),
      findConceptIndices codes f = some idxs → locatesOk codes idxs f = true := by
  intro codes
  induction codes with
  | nil =>
    intro f idxs h
    rw [findConceptIndices] at h
    simp only [Option.some.injEq] at h
    subst h
    rfl
  | cons step rest ih =>
    intro f idxs h
    rw [findConceptIndices] at h
    cases hf : findIndexed step f with
    | none => rw [hf] at h; simp at h
    | some p =>
      rw [hf] at h
      rw [Option.map_eq_some'] at h
      obtain ⟨l, hl, hidxs⟩ := h
      subst hidxs
      obtain ⟨hget, hcode, htake⟩ := findIndexed_some step f p.1 p.2 hf
      rw [locatesOk, hget]
      refine (Bool.and_eq_true _ _).mpr ⟨(Bool.and_eq_true _ _).mpr ⟨?_, ?_⟩, ih _ _ hl⟩
      · simp [hcode]
      · rw [List.all_eq_true]
        intro d hd
        simp [htake d hd]

/-- C6: a code caret rule whose code path does not resolve is skipped with
exactly one diagnostic naming the code path and no document mutation; a
resolving code path is translated into the dotted positional path
concept[i].concept[j]... which is handed, prepended to the rule's caret
path, to ordinary caret path resolution; and those indices do locate the
codes, first match at each level. -/
theorem codeCaret_translation (sp : CodeSystem → FshPath → FshValue → CodeSystem)
    (sd : StructureDefinition) (st : ExportState) (r : CodeCaretValueRule) :
    (findConceptIndices r.codePath (st.doc.concept.getD []) = none →
      codeCaretStep sp sd st r =
        { st with diags := st.diags ++
            [⟨Severity.error, DiagKind.ruleError (ExportError.cannotResolvePath r.codePath),
              some r.sourceInfo⟩] }) ∧
    (∀ idxs, findConceptIndices r.codePath (st.doc.concept.getD []) = some idxs →
      (codeCaretStep sp sd st r).events =
        st.events ++ [ExportEvent.codeCaretApplied (conceptSegs idxs ++ r.caretPath)] ∧
      locatesOk r.codePath idxs (st.doc.concept.getD []) = true) := by
  constructor
  · intro h
    simp [codeCaretStep, findConceptPath, h]
  · intro idxs h
    refine ⟨?_, findConceptIndices_locatesOk _ _ _ h⟩
    simp only [codeCaretStep, findConceptPath, h]
    cases sd.validateValueAtPath (conceptSegs idxs ++ r.caretPath) r.value <;> simp

/-- Unfolding countConceptsList over an arbitrary cons cell, phrased with
the concept projection. -/
theorem countConceptsList_cons (c : CodeSystemConcept) (rest : List CodeSystemConcept) :
    countConceptsList (c :: rest) = countConcepts c.concept + countConceptsList rest := by
  cases c
  rw [countConceptsList]
  rfl

/-- countConceptsList distributes over append. -/
theorem countConceptsList_append (a b : List CodeSystemConcept) :
    countConceptsList (a ++ b) = countConceptsList a + countConceptsList b := by
  induction a with
  | nil => rw [countConceptsList]; simp
  | cons x xs ih =>
    rw [List.cons_append, countConceptsList_cons, countConceptsList_cons, ih]
    omega

/-- countConcepts over a cons cell. -/
theorem countConcepts_some_cons (c : CodeSystemConcept) (rest : List CodeSystemConcept) :
    countConcepts (some (c :: rest)) =
      1 + countConcepts c.concept + countConcepts (some rest) := by
  rw [countConcepts, countConcepts, countConceptsList_cons]
  simp
  omega

/-- An absent child list counts the same as an empty one. -/
theorem countConcepts_childrenOrEmpty (c : CodeSystemConcept) :
    countConcepts (some c.childrenOrEmpty) = countConcepts c.concept := by
  cases hc : c.concept with
  | none => simp [CodeSystemConcept.childrenOrEmpty, hc, countConcepts, countConceptsList]
  | some l => simp [CodeSystemConcept.childrenOrEmpty, hc]

/-- flatCodes over a cons cell, phrased with the two projections. -/
theorem flatCodes_cons (c : CodeSystemConcept) (rest : List CodeSystemConcept) :
    flatCodes (c :: rest) = c.code :: (flatCodes c.childrenOrEmpty ++ flatCodes rest) := by
  cases c with
  | mk code d df ch =>
    cases ch with
    | none =>
      rw [flatCodes]
      simp [CodeSystemConcept.childrenOrEmpty, CodeSystemConcept.concept, flatCodes,
        CodeSystemConcept.code]
    | some l =>
      rw [flatCodes]
      simp [CodeSystemConcept.childrenOrEmpty, CodeSystemConcept.concept,
        CodeSystemConcept.code]

/-- A failed insertion adds no concept anywhere: the pre-order code list
of the forest is unchanged. -/
theorem insertConcept_fail_flatCodes :
    ∀ (h : List String) (c : CodeSystemConcept) (f f' : List CodeSystemConcept) (anc : String),
      insertConcept h c f = (f', some anc) → flatCodes f' = flatCodes f := by
  intro h
  induction h with
  | nil =>
    intro c f f' anc heq
    rw [insertConcept] at heq
    simp at heq
  | cons a rest ih =>
    intro c f
    induction f with
    | nil =>
      intro f' anc heq
      rw [insertConcept, insertLevel] at heq
      simp only [Prod.mk.injEq] at heq
      obtain ⟨hf, _⟩ := heq
      subst hf
      rfl
    | cons x xs ihx =>
      intro f' anc heq
      obtain ⟨xc, xd, xdf, xch⟩ := x
      rw [insertConcept, insertLevel] at heq
      by_cases hx : (CodeSystemConcept.mk xc xd xdf xch).code = a
      · rw [if_pos hx] at heq
        simp only [Prod.mk.injEq] at heq
        obtain ⟨hf, hsnd⟩ := heq
        subst hf
        have hrec : flatCodes (insertConcept rest c
              (CodeSystemConcept.mk xc xd xdf xch).childrenOrEmpty).1 =
            flatCodes (CodeSystemConcept.mk xc xd xdf xch).childrenOrEmpty := by
          refine ih c _ _ anc ?_
          rw [← hsnd]
        rw [flatCodes_cons, flatCodes_cons]
        simp only [CodeSystemConcept.code, CodeSystemConcept.childrenOrEmpty,
          CodeSystemConcept.concept, Option.getD_some] at hrec ⊢
        rw [hrec]
      · rw [if_neg hx] at heq
        simp only [Prod.mk.injEq] at heq
        obtain ⟨hf, hsnd⟩ := heq
        subst hf
        have hrec : flatCodes (insertLevel (insertConcept rest c) a xs).1 = flatCodes xs := by
          refine ihx _ anc ?_
          rw [insertConcept, ← hsnd]
        rw [flatCodes_cons, flatCodes_cons, hrec]

/-- A successful insertion appends the new concept as the last child at
the level its hierarchy locates, and grows the total concept count by
exactly one plus the count of the inserted subtree. -/
theorem insertConcept_ok_spec :
    ∀ (h : List String) (c : CodeSystemConcept) (f f' : List CodeSystemConcept),
      insertConcept h c f = (f', none) →
      ∃ l, descend h f = some l ∧ descend h f' = some (l ++ [c]) ∧
        countConcepts (some f') =
          countConcepts (some f) + 1 + countConcepts c.concept := by
  intro h
  induction h with
  | nil =>
    intro c f f' heq
    rw [insertConcept] at heq
    simp only [Prod.mk.injEq] at heq
    obtain ⟨hf, _⟩ := heq
    subst hf
    refine ⟨f, rfl, rfl, ?_⟩
    rw [countConcepts, countConcepts, countConceptsList_append, countConceptsList_cons,
      countConceptsList]
    simp
    omega
  | cons a rest ih =>
    intro c f
    induction f with
    | nil =>
      intro f' heq
      rw [insertConcept, insertLevel] at heq
      simp at heq
    | cons x xs ihx =>
      intro f' heq
      obtain ⟨xc, xd, xdf, xch⟩ := x
      rw [insertConcept, insertLevel] at heq
      by_cases hx : (CodeSystemConcept.mk xc xd xdf xch).code = a
      · rw [if_pos hx] at heq
        simp only [Prod.mk.injEq] at heq
        obtain ⟨hf, hsnd⟩ := heq
        subst hf
        obtain ⟨l, hdes, hdes', hcount⟩ :=
          ih c (CodeSystemConcept.mk xc xd xdf xch).childrenOrEmpty
            (insertConcept rest c (CodeSystemConcept.mk xc xd xdf xch).childrenOrEmpty).1
            (by rw [← hsnd])
        refine ⟨l, ?_, ?_, ?_⟩
        · rw [descend, List.find?_cons_of_pos _ (by simp [hx])]
          exact hdes
        · rw [descend, List.find?_cons_of_pos _ (by simpa [CodeSystemConcept.code] using hx)]
          simpa [CodeSystemConcept.childrenOrEmpty, CodeSystemConcept.concept] using hdes'
        · rw [countConcepts_some_cons, countConcepts_some_cons]
          have hxc := countConcepts_childrenOrEmpty (CodeSystemConcept.mk xc xd xdf xch)
          simp only [CodeSystemConcept.concept, CodeSystemConcept.childrenOrEmpty,
            CodeSystemConcept.code, CodeSystemConcept.display, CodeSystemConcept.definition,
            Option.getD_some] at hxc hcount ⊢
          omega
      · rw [if_neg hx] at heq
        simp only [Prod.mk.injEq] at heq
        obtain ⟨hf, hsnd⟩ := heq
        subst hf
        obtain ⟨l, hdes, hdes', hcount⟩ :=
          ihx (insertLevel (insertConcept rest c) a xs).1 (by rw [insertConcept, ← hsnd])
        refine ⟨l, ?_, ?_, ?_⟩
        · rw [descend, List.find?_cons_of_neg _ (by simp [hx])]
          rw [descend] at hdes
          exact hdes
        · rw [descend] at hdes'
          rw [descend, List.find?_cons_of_neg _ (by simp [hx])]
          exact hdes'
        · rw [countConcepts_some_cons, countConcepts_some_cons]
          omega

/-- C2: a concept rule naming an ancestor absent from the forest at the
moment the rule is applied is processed by logging exactly one diagnostic
identifying the missing ancestor and the concept; the concept is not
added (the forest's code list is unchanged) and the remaining concept
rules are still processed from that state. -/
theorem concept_missing_ancestor (st st₁ : ExportState) (rs₁ : List ConceptRule)
    (r : ConceptRule) (rs₂ : List ConceptRule) (f' : List CodeSystemConcept) (anc : String)
    (hst₁ : List.foldl conceptStep { st with doc := { st.doc with concept := some [] } } rs₁
      = st₁)
    (h : insertConcept r.hierarchy (newConceptOf r) (st₁.doc.concept.getD [])
      = (f', some anc)) :
    setConcepts st (rs₁ ++ r :: rs₂) =
      List.foldl conceptStep
        ⟨{ st₁.doc with concept := some f' },
         st₁.diags ++
           [⟨Severity.error, DiagKind.missingAncestor anc r.code, some r.sourceInfo⟩],
         st₁.events ++ [ExportEvent.conceptApplied r.code]⟩ rs₂
    ∧ flatCodes f' = flatCodes (st₁.doc.concept.getD []) := by
  refine ⟨?_, insertConcept_fail_flatCodes r.hierarchy (newConceptOf r) _ f' anc h⟩
  rw [setConcepts, if_pos (by simp), List.foldl_append, hst₁, List.foldl_cons]
  congr 1
  simp only [conceptStep]
  rw [h]

/-- Witness for C2: after the root concept a, the rule for x names the
missing ancestor zz and is dropped with one diagnostic while the rule for
c is still processed. -/
theorem concept_missing_ancestor_witness :
    setConcepts stW ([rAW] ++ rBadW :: [rCW]) =
      List.foldl conceptStep
        ⟨{ st1W.doc with concept := some forestAW },
         st1W.diags ++ [⟨Severity.error, DiagKind.missingAncestor "zz" "x", some 4⟩],
         st1W.events ++ [ExportEvent.conceptApplied "x"]⟩ [rCW]
    ∧ flatCodes forestAW = flatCodes (st1W.doc.concept.getD []) :=
  concept_missing_ancestor stW st1W [rAW] rBadW [rCW] forestAW "zz" rfl rfl

/-- C3: a concept rule whose ancestor chain is satisfied at the moment of
its application is inserted exactly once (the total count grows by one),
as the last child at the level located by walking its ancestor codes, with
no diagnostic, and the remaining rules are processed from that state. -/
theorem concept_inserted_in_order (st st₁ : ExportState) (rs₁ : List ConceptRule)
    (r : ConceptRule) (rs₂ : List ConceptRule) (f' : List CodeSystemConcept)
    (hst₁ : List.foldl conceptStep { st with doc := { st.doc with concept := some [] } } rs₁
      = st₁)
    (h : insertConcept r.hierarchy (newConceptOf r) (st₁.doc.concept.getD []) = (f', none)) :
    setConcepts st (rs₁ ++ r :: rs₂) =
      List.foldl conceptStep
        ⟨{ st₁.doc with concept := some f' }, st₁.diags,
         st₁.events ++ [ExportEvent.conceptApplied r.code]⟩ rs₂
    ∧ ∃ l, descend r.hierarchy (st₁.doc.concept.getD []) = some l
        ∧ descend r.hierarchy f' = some (l ++ [newConceptOf r])
        ∧ countConcepts (some f') = countConcepts (some (st₁.doc.concept.getD [])) + 1 := by
  constructor
  · rw [setConcepts, if_pos (by simp), List.foldl_append, hst₁, List.foldl_cons]
    congr 1
    simp only [conceptStep]
    rw [h]
  · obtain ⟨l, h1, h2, h3⟩ := insertConcept_ok_spec r.hierarchy (newConceptOf r) _ f' h
    refine ⟨l, h1, h2, ?_⟩
    rw [h3]
    simp [newConceptOf, CodeSystemConcept.concept, countConcepts]

/-- Witness for C3: after the root concept a, the rule for b with ancestor
chain a is appended as the last (only) child under a and the total count
grows from 1 to 2. -/
theorem concept_inserted_in_order_witness :
    setConcepts stW ([rAW] ++ rChildW :: []) =
      List.foldl conceptStep
        ⟨{ st1W.doc with concept := some forestABW },
         st1W.diags,
         st1W.events ++ [ExportEvent.conceptApplied "b"]⟩ []
    ∧ ∃ l, descend ["a"] (st1W.doc.concept.getD []) = some l
        ∧ descend ["a"] forestABW = some (l ++ [newConceptOf rChildW])
        ∧ countConcepts (some forestABW)
            = countConcepts (some (st1W.doc.concept.getD [])) + 1 :=
  concept_inserted_in_order stW st1W [rAW] rChildW [] forestABW rfl rfl

/-- Every segment the soft-index resolver emits carries a non-soft index,
provided the already-emitted segments do. -/
theorem resolveSoftSegs_free :
    ∀ (rest : FshPath) (ctr : List ((FshPath × String) × Nat)) (done : FshPath),
      (∀ s ∈ done, IndexMarker.isSoft s.index = false) →
      ∀ s ∈ (resolveSoftSegs ctr done rest).2, IndexMarker.isSoft s.index = false := by
  intro rest
  induction rest with
  | nil =>
    intro ctr done hd s hs
    rw [resolveSoftSegs] at hs
    exact hd s (List.mem_reverse.mp hs)
  | cons seg segs ih =>
    intro ctr done hd s hs
    rw [resolveSoftSegs] at hs
    cases hI : seg.index with
    | none =>
      rw [hI] at hs
      refine ih _ _ ?_ s hs
      intro t ht
      rcases List.mem_cons.mp ht with h1 | h2
      · subst h1; rfl
      · exact hd t h2
    | some m =>
      cases m with
      | literal n =>
        rw [hI] at hs
        refine ih _ _ ?_ s hs
        intro t ht
        rcases List.mem_cons.mp ht with h1 | h2
        · subst h1; rfl
        · exact hd t h2
      | slice nm =>
        rw [hI] at hs
        refine ih _ _ ?_ s hs
        intro t ht
        rcases List.mem_cons.mp ht with h1 | h2
        · subst h1; rfl
        · exact hd t h2
      | append =>
        rw [hI] at hs
        refine ih _ _ ?_ s hs
        intro t ht
        rcases List.mem_cons.mp ht with h1 | h2
        · subst h1; rfl
        · exact hd t h2
      | samePrev =>
        rw [hI] at hs
        refine ih _ _ ?_ s hs
        intro t ht
        rcases List.mem_cons.mp ht with h1 | h2
        · subst h1; rfl
        · exact hd t h2

/-- Every rule the soft-index resolver returns has a marker-free caret
path. -/
theorem resolveSoftRules_free :
    ∀ (rules : List CaretValueRule) (ctr : List ((FshPath × String) × Nat))
      (r : CaretValueRule), r ∈ resolveSoftRules ctr rules →
      FshPath.hasSoftMarker r.caretPath = false := by
  intro rules
  induction rules with
  | nil => intro ctr r h; rw [resolveSoftRules] at h; simp at h
  | cons x xs ih =>
    intro ctr r h
    rw [resolveSoftRules] at h
    rcases List.mem_cons.mp h with h1 | h2
    · subst h1
      rw [FshPath.hasSoftMarker, List.any_eq_false]
      intro s hs
      simp only [Bool.not_eq_true]
      exact resolveSoftSegs_free x.caretPath ctr [] (by simp) s hs
    · exact ih _ r h2

/-- The events produced by folding the caret-rule step are exactly one
resolution request per rule, in order. -/
theorem foldl_caretStep_events (sp : CodeSystem → FshPath → FshValue → CodeSystem)
    (sd : StructureDefinition) :
    ∀ (rs : List CaretValueRule) (st : ExportState),
      (List.foldl (caretStep sp sd) st rs).events =
        st.events ++ rs.map (fun r => ExportEvent.caretApplied r.caretPath) := by
  intro rs
  induction rs with
  | nil => intro st; simp
  | cons r rest ih =>
    intro st
    rw [List.foldl_cons, ih]
    have hstep : (caretStep sp sd st r).events =
        st.events ++ [ExportEvent.caretApplied r.caretPath] := by
      simp only [caretStep]
      cases sd.validateValueAtPath r.caretPath r.value <;> simp
    rw [hstep]
    simp

/-- C7 (amended): within one entity, soft-index resolution of the root
caret value rules happens once, as a pre-pass over that rule list, before
any of those rules' paths reach path resolution, and every resolved rule's
path is marker-free; the resolution requests are exactly the resolved
paths in order.  (The code caret value rules of the entity are not
soft-index resolved; see the counterexample theorem.) -/
theorem caret_soft_index_prepass (sp : CodeSystem → FshPath → FshValue → CodeSystem)
    (sd : StructureDefinition) (st : ExportState) (rules : List CaretValueRule) :
    (setCaretRules sp sd st rules).events
      = st.events ++ ExportEvent.softResolved (resolveSoftIndexing rules)
          :: (resolveSoftIndexing rules).map (fun r => ExportEvent.caretApplied r.caretPath)
    ∧ ∀ r ∈ resolveSoftIndexing rules, FshPath.hasSoftMarker r.caretPath = false := by
  constructor
  · rw [setCaretRules, foldl_caretStep_events]
    simp
  · intro r hr
    exact resolveSoftRules_free rules [] r hr

/-- Witness for C7 (amended): a single root caret rule with an append
marker is resolved before its resolution request, and the resolved rule is
marker-free. -/
theorem caret_soft_index_prepass_witness :
    (setCaretRules (fun d _ _ => d) sdIdW stW [crSoftW]).events
      = stW.events ++ ExportEvent.softResolved (resolveSoftIndexing [crSoftW])
          :: (resolveSoftIndexing [crSoftW]).map (fun r => ExportEvent.caretApplied r.caretPath)
    ∧ FshPath.hasSoftMarker
        (CaretValueRule.mk [⟨"designation", some (IndexMarker.literal 0)⟩, ⟨"value", none⟩]
          "v" 9).caretPath = false :=
  ⟨(caret_soft_index_prepass (fun d _ _ => d) sdIdW stW [crSoftW]).1,
   (caret_soft_index_prepass (fun d _ _ => d) sdIdW stW [crSoftW]).2
     (CaretValueRule.mk [⟨"designation", some (IndexMarker.literal 0)⟩, ⟨"value", none⟩] "v" 9)
     (by decide)⟩

/-- Counterexample for C7: as stated the claim fails on the code.  For the
entity eSoftW, whose code caret rule's caret path carries an append
marker, a path containing a soft index marker is handed to path
resolution during the export, so soft-index markers are not all replaced
before path resolution. -/
theorem soft_index_reaches_resolution_counterexample :
    (resolutionRequestPaths (eventsOfResult (exportCodeSystem ctxW ⟨[]⟩ eSoftW))).any
      FshPath.hasSoftMarker = true := by
  decide

/-- The events produced by folding the concept step are exactly one
concept event per rule, in order. -/
theorem foldl_conceptStep_events :
    ∀ (rs : List ConceptRule) (st : ExportState),
      (List.foldl conceptStep st rs).events =
        st.events ++ rs.map (fun r => ExportEvent.conceptApplied r.code) := by
  intro rs
  induction rs with
  | nil => intro st; simp
  | cons r rest ih =>
    intro st
    rw [List.foldl_cons, ih]
    have hstep : (conceptStep st r).events =
        st.events ++ [ExportEvent.conceptApplied r.code] := by
      simp only [conceptStep]
      cases (insertConcept r.hierarchy (newConceptOf r) (st.doc.concept.getD [])).2 <;> simp
    rw [hstep]
    simp

/-- setConcepts appends exactly one concept event per rule. -/
theorem setConcepts_events (st : ExportState) (rules : List ConceptRule) :
    (setConcepts st rules).events =
      st.events ++ rules.map (fun r => ExportEvent.conceptApplied r.code) := by
  rw [setConcepts]
  by_cases h : rules.length > 0
  · rw [if_pos h, foldl_conceptStep_events]
  · rw [if_neg h]
    have : rules = [] := List.length_eq_zero.mp (by omega)
    subst this
    simp

/-- Folding the code caret step appends only code-caret events. -/
theorem foldl_codeCaretStep_events (sp : CodeSystem → FshPath → FshValue → CodeSystem)
    (sd : StructureDefinition) :
    ∀ (rs : List CodeCaretValueRule) (st : ExportState),
      ∃ es, (List.foldl (codeCaretStep sp sd) st rs).events = st.events ++ es
        ∧ es.all isCodeCaretEvent = true := by
  intro rs
  induction rs with
  | nil => intro st; exact ⟨[], by simp, rfl⟩
  | cons r rest ih =>
    intro st
    have hstep : ∃ es0, (codeCaretStep sp sd st r).events = st.events ++ es0
        ∧ es0.all isCodeCaretEvent = true := by
      simp only [codeCaretStep]
      cases findConceptPath st.doc r.codePath with
      | error e => exact ⟨[], by simp, rfl⟩
      | ok cp =>
        cases hv : sd.validateValueAtPath (cp ++ r.caretPath) r.value with
        | ok res =>
          exact ⟨[ExportEvent.codeCaretApplied (cp ++ r.caretPath)], by simp [hv], rfl⟩
        | error e =>
          exact ⟨[ExportEvent.codeCaretApplied (cp ++ r.caretPath)], by simp [hv], rfl⟩
    obtain ⟨es0, h0, ha0⟩ := hstep
    obtain ⟨es1, h1, ha1⟩ := ih (codeCaretStep sp sd st r)
    refine ⟨es0 ++ es1, ?_, ?_⟩
    · rw [List.foldl_cons, h1, h0, List.append_assoc]
    · rw [List.all_append, ha0, ha1]
      rfl

/-- Closed form of exporting a rule-free entity with a present schema and
a fresh name: the metadata document is appended to the package, the only
event is the empty soft pre-pass, and the diagnostics are exactly the
duplicate-id diagnostic when the package already holds that id. -/
theorem export_no_rules (ctx : ExporterCtx) (sd : StructureDefinition) (pkg : Package)
    (fsh : FshCodeSystem) (hf : ctx.fisher = some sd) (hr : fsh.rules = [])
    (hn : pkg.codeSystems.any (fun cs => cs.name == some fsh.name) = false) :
    exportCodeSystem ctx pkg fsh =
      Except.ok ⟨⟨pkg.codeSystems ++ [setMetadata CodeSystem.init fsh ctx]⟩,
        (if pkg.codeSystems.any
              (fun cs => (setMetadata CodeSystem.init fsh ctx).id == cs.id)
          then [⟨Severity.error,
                 DiagKind.duplicateId (setMetadata CodeSystem.init fsh ctx).id,
                 some fsh.sourceInfo⟩]
          else []),
        [ExportEvent.softResolved []],
        some (setMetadata CodeSystem.init fsh ctx)⟩ := by
  rw [exportCodeSystem, if_neg (by simp [hn]), hf]
  simp only [applyInsertRules, caretValueRules, conceptRules, codeCaretRules, hr,
    List.filterMap_nil, setCaretRules, resolveSoftIndexing, resolveSoftRules,
    List.foldl_nil, setConcepts, setCodeCaretRules, List.length_nil, gt_iff_lt,
    Nat.lt_irrefl, if_false]
  cases hdup : pkg.codeSystems.any
      (fun cs => (setMetadata CodeSystem.init fsh ctx).id == cs.id) with
  | true =>
    simp only [hdup, if_true]
    simp [updateCount, setMetadata, CodeSystem.init, countConcepts, optCount]
  | false =>
    simp only [hdup, Bool.false_eq_true, if_false]
    simp [updateCount, setMetadata, CodeSystem.init, countConcepts, optCount]

/-- C8: per entity, every caret-phase event (the soft pre-pass and root
caret resolution requests) precedes every concept event, which precedes
every per-concept caret event: the trace of an export that returned
decomposes into the three phases in that order. -/
theorem export_phase_order (ctx : ExporterCtx) (pkg : Package) (fsh : FshCodeSystem)
    (r : ExportResult) (h : exportCodeSystem ctx pkg fsh = Except.ok r) :
    ∃ a b c, r.events = a ++ b ++ c
      ∧ a.all isCaretPhaseEvent = true
      ∧ b.all isConceptEvent = true
      ∧ c.all isCodeCaretEvent = true := by
  rw [exportCodeSystem] at h
  by_cases hdup : pkg.codeSystems.any (fun cs => cs.name == some fsh.name) = true
  · rw [if_pos hdup] at h
    have hr : r.events = [] := by
      cases h
      rfl
    exact ⟨[], [], [], by simp [hr], rfl, rfl, rfl⟩
  · rw [if_neg hdup] at h
    cases hf : ctx.fisher with
    | none =>
      rw [hf] at h
      exact absurd h (by simp)
    | some sd =>
      rw [hf] at h
      have hr : r.events =
          (setCodeCaretRules ctx.setProp sd
            (setConcepts
              (setCaretRules ctx.setProp sd
                ⟨setMetadata CodeSystem.init fsh ctx, [], []⟩
                (caretValueRules (applyInsertRules fsh)))
              (conceptRules (applyInsertRules fsh)))
            (codeCaretRules (applyInsertRules fsh))).events := by
        cases h
        split <;> rfl
      set st1 := setCaretRules ctx.setProp sd
        ⟨setMetadata CodeSystem.init fsh ctx, [], []⟩
        (caretValueRules (applyInsertRules fsh)) with hst1
      set st2 := setConcepts st1 (conceptRules (applyInsertRules fsh)) with hst2
      obtain ⟨es3, h3, ha3⟩ :=
        foldl_codeCaretStep_events ctx.setProp sd (codeCaretRules (applyInsertRules fsh)) st2
      have h2 : st2.events = st1.events ++
          (conceptRules (applyInsertRules fsh)).map
            (fun cr => ExportEvent.conceptApplied cr.code) := by
        rw [hst2, setConcepts_events]
      have h1 : st1.events =
          ExportEvent.softResolved (resolveSoftIndexing (caretValueRules (applyInsertRules fsh)))
            :: (resolveSoftIndexing (caretValueRules (applyInsertRules fsh))).map
                (fun cr => ExportEvent.caretApplied cr.caretPath) := by
        rw [hst1, setCaretRules, foldl_caretStep_events]
        rfl
      refine ⟨ExportEvent.softResolved
          (resolveSoftIndexing (caretValueRules (applyInsertRules fsh)))
            :: (resolveSoftIndexing (caretValueRules (applyInsertRules fsh))).map
                (fun cr => ExportEvent.caretApplied cr.caretPath),
        (conceptRules (applyInsertRules fsh)).map
          (fun cr => ExportEvent.conceptApplied cr.code),
        es3, ?_, ?_, ?_, ha3⟩
      · rw [hr]
        show (setCodeCaretRules ctx.setProp sd st2 (codeCaretRules (applyInsertRules fsh))).events
          = _
        rw [setCodeCaretRules, h3, h2, h1]
      · rw [List.all_cons]
        refine (Bool.and_eq_true _ _).mpr ⟨rfl, ?_⟩
        rw [List.all_eq_true]
        intro e he
        obtain ⟨cr, _, hcr⟩ := List.mem_map.mp he
        rw [← hcr]
        rfl
      · rw [List.all_eq_true]
        intro e he
        obtain ⟨cr, _, hcr⟩ := List.mem_map.mp he
        rw [← hcr]
        rfl

/-- Witness for C8: the phase decomposition of the trace of a concrete
successful export. -/
theorem export_phase_order_witness :
    ∃ a b c, (ExportResult.mk ⟨[setMetadata CodeSystem.init eW1 ctxW]⟩ []
        [ExportEvent.softResolved []] (some (setMetadata CodeSystem.init eW1 ctxW))).events
        = a ++ b ++ c
      ∧ a.all isCaretPhaseEvent = true
      ∧ b.all isConceptEvent = true
      ∧ c.all isCodeCaretEvent = true :=
  export_phase_order ctxW ⟨[]⟩ eW1
    (ExportResult.mk ⟨[setMetadata CodeSystem.init eW1 ctxW]⟩ []
      [ExportEvent.softResolved []] (some (setMetadata CodeSystem.init eW1 ctxW)))
    (export_no_rules ctxW sdIdW ⟨[]⟩ eW1 rfl rfl rfl)

/-- C9: the propagation policy.  A path/value error raised by the
validator for one rule is caught at that rule's boundary and logged with
that rule's source location (the step stays total, so the loop continues
and nothing escapes the entity); with a present schema the entity's export
always returns rather than raises; a failed schema lookup raises out of
the entity's export; and the run-level loop catches that, logs it with the
entity's source location, and proceeds with the remaining entities. -/
theorem error_propagation_policy :
    (∀ (sp : CodeSystem → FshPath → FshValue → CodeSystem) (sd : StructureDefinition)
       (st : ExportState) (r : CaretValueRule) (e : ExportError),
      sd.validateValueAtPath r.caretPath r.value = Except.error e →
      caretStep sp sd st r =
        ⟨st.doc, st.diags ++ [⟨Severity.error, DiagKind.ruleError e, some r.sourceInfo⟩],
         st.events ++ [ExportEvent.caretApplied r.caretPath]⟩) ∧
    (∀ (ctx : ExporterCtx) (pkg : Package) (fsh : FshCodeSystem) (sd : StructureDefinition),
      ctx.fisher = some sd → ∃ res, exportCodeSystem ctx pkg fsh = Except.ok res) ∧
    (∀ (ctx : ExporterCtx) (pkg : Package) (fsh : FshCodeSystem),
      ctx.fisher = none →
      pkg.codeSystems.any (fun cs => cs.name == some fsh.name) = false →
      exportCodeSystem ctx pkg fsh = Except.error ExportError.schemaMissing) ∧
    (∀ (ctx : ExporterCtx) (acc : Package × List Diagnostic) (fsh : FshCodeSystem)
       (rest : List FshCodeSystem) (e : ExportError),
      exportCodeSystem ctx acc.1 fsh = Except.error e →
      exportLoop ctx acc (fsh :: rest) =
        exportLoop ctx
          (acc.1, acc.2 ++ [⟨Severity.error, DiagKind.entityError e, some fsh.sourceInfo⟩])
          rest) := by
  refine ⟨?_, ?_, ?_, ?_⟩
  · intro sp sd st r e hv
    simp only [caretStep]
    rw [hv]
  · intro ctx pkg fsh sd hf
    rw [exportCodeSystem]
    by_cases hdup : pkg.codeSystems.any (fun cs => cs.name == some fsh.name) = true
    · rw [if_pos hdup]
      exact ⟨_, rfl⟩
    · rw [if_neg hdup, hf]
      exact ⟨_, rfl⟩
  · intro ctx pkg fsh hf hn
    rw [exportCodeSystem, if_neg (by simp [hn]), hf]
  · intro ctx acc fsh rest e he
    simp only [exportLoop, he]

/-- Witness for C9: a failing validator logs at the rule's location and
the step returns; an export with a present schema returns; an export with
a failed schema lookup raises; and the run loop logs it at the entity's
location and goes on. -/
theorem error_propagation_policy_witness :
    (caretStep (fun d _ _ => d) sdFailW stW crW =
      ⟨stW.doc,
       stW.diags ++ [⟨Severity.error, DiagKind.ruleError (ExportError.validationError "bad value"),
         some 8⟩],
       stW.events ++ [ExportEvent.caretApplied crW.caretPath]⟩) ∧
    (∃ res, exportCodeSystem ctxW ⟨[]⟩ eW1 = Except.ok res) ∧
    (exportCodeSystem ctxNoSchemaW ⟨[]⟩ eW1 = Except.error ExportError.schemaMissing) ∧
    (exportLoop ctxNoSchemaW (⟨[]⟩, []) [eW1] =
      exportLoop ctxNoSchemaW
        (⟨[]⟩, [] ++ [⟨Severity.error, DiagKind.entityError ExportError.schemaMissing, some 10⟩])
        []) :=
  ⟨error_propagation_policy.1 (fun d _ _ => d) sdFailW stW crW
     (ExportError.validationError "bad value") rfl,
   error_propagation_policy.2.1 ctxW ⟨[]⟩ eW1 sdIdW rfl,
   error_propagation_policy.2.2.1 ctxNoSchemaW ⟨[]⟩ eW1 rfl rfl,
   error_propagation_policy.2.2.2 ctxNoSchemaW (⟨[]⟩, []) eW1 [] ExportError.schemaMissing
     (error_propagation_policy.2.2.1 ctxNoSchemaW ⟨[]⟩ eW1 rfl rfl)⟩

/-- Folding the caret-rule step appends no duplicate-id diagnostic. -/
theorem foldl_caretStep_diags (sp : CodeSystem → FshPath → FshValue → CodeSystem)
    (sd : StructureDefinition) :
    ∀ (rs : List CaretValueRule) (st : ExportState),
      ∃ ds, (List.foldl (caretStep sp sd) st rs).diags = st.diags ++ ds
        ∧ ds.filter isDuplicateIdDiag = [] := by
  intro rs
  induction rs with
  | nil => intro st; exact ⟨[], by simp, rfl⟩
  | cons r rest ih =>
    intro st
    have hstep : ∃ d0, (caretStep sp sd st r).diags = st.diags ++ d0
        ∧ d0.filter isDuplicateIdDiag = [] := by
      simp only [caretStep]
      cases hv : sd.validateValueAtPath r.caretPath r.value with
      | ok res => exact ⟨[], by simp [hv], rfl⟩
      | error e =>
        exact ⟨[⟨Severity.error, DiagKind.ruleError e, some r.sourceInfo⟩], by simp [hv], rfl⟩
    obtain ⟨d0, h0, hf0⟩ := hstep
    obtain ⟨d1, hd1, hf1⟩ := ih (caretStep sp sd st r)
    refine ⟨d0 ++ d1, ?_, ?_⟩
    · rw [List.foldl_cons, hd1, h0, List.append_assoc]
    · rw [List.filter_append, hf0, hf1]
      rfl

/-- Folding the concept step appends no duplicate-id diagnostic. -/
theorem foldl_conceptStep_diags :
    ∀ (rs : List ConceptRule) (st : ExportState),
      ∃ ds, (List.foldl conceptStep st rs).diags = st.diags ++ ds
        ∧ ds.filter isDuplicateIdDiag = [] := by
  intro rs
  induction rs with
  | nil => intro st; exact ⟨[], by simp, rfl⟩
  | cons r rest ih =>
    intro st
    have hstep : ∃ d0, (conceptStep st r).diags = st.diags ++ d0
        ∧ d0.filter isDuplicateIdDiag = [] := by
      simp only [conceptStep]
      cases hv : (insertConcept r.hierarchy (newConceptOf r) (st.doc.concept.getD [])).2 with
      | none => exact ⟨[], by simp [hv], rfl⟩
      | some anc =>
        exact ⟨[⟨Severity.error, DiagKind.missingAncestor anc r.code, some r.sourceInfo⟩],
          by simp [hv], rfl⟩
    obtain ⟨d0, h0, hf0⟩ := hstep
    obtain ⟨d1, hd1, hf1⟩ := ih (conceptStep st r)
    refine ⟨d0 ++ d1, ?_, ?_⟩
    · rw [List.foldl_cons, hd1, h0, List.append_assoc]
    · rw [List.filter_append, hf0, hf1]
      rfl

/-- setConcepts appends no duplicate-id diagnostic. -/
theorem setConcepts_diags (st : ExportState) (rules : List ConceptRule) :
    ∃ ds, (setConcepts st rules).diags = st.diags ++ ds
      ∧ ds.filter isDuplicateIdDiag = [] := by
  rw [setConcepts]
  by_cases h : rules.length > 0
  · rw [if_pos h]
    exact foldl_conceptStep_diags rules _
  · rw [if_neg h]
    exact ⟨[], by simp, rfl⟩

/-- Folding the code caret step appends no duplicate-id diagnostic. -/
theorem foldl_codeCaretStep_diags (sp : CodeSystem → FshPath → FshValue → CodeSystem)
    (sd : StructureDefinition) :
    ∀ (rs : List CodeCaretValueRule) (st : ExportState),
      ∃ ds, (List.foldl (codeCaretStep sp sd) st rs).diags = st.diags ++ ds
        ∧ ds.filter isDuplicateIdDiag = [] := by
  intro rs
  induction rs with
  | nil => intro st; exact ⟨[], by simp, rfl⟩
  | cons r rest ih =>
    intro st
    have hstep : ∃ d0, (codeCaretStep sp sd st r).diags = st.diags ++ d0
        ∧ d0.filter isDuplicateIdDiag = [] := by
      simp only [codeCaretStep]
      cases findConceptPath st.doc r.codePath with
      | error e =>
        exact ⟨[⟨Severity.error, DiagKind.ruleError e, some r.sourceInfo⟩], by simp, rfl⟩
      | ok cp =>
        cases hv : sd.validateValueAtPath (cp ++ r.caretPath) r.value with
        | ok res => exact ⟨[], by simp [hv], rfl⟩
        | error e =>
          exact ⟨[⟨Severity.error, DiagKind.ruleError e, some r.sourceInfo⟩], by simp [hv], rfl⟩
    obtain ⟨d0, h0, hf0⟩ := hstep
    obtain ⟨d1, hd1, hf1⟩ := ih (codeCaretStep sp sd st r)
    refine ⟨d0 ++ d1, ?_, ?_⟩
    · rw [List.foldl_cons, hd1, h0, List.append_assoc]
    · rw [List.filter_append, hf0, hf1]
      rfl

/-- The whole rule pipeline of one entity logs no duplicate-id
diagnostic. -/
theorem pipeline_diags_nodup (ctx : ExporterCtx) (sd : StructureDefinition)
    (fsh : FshCodeSystem) (doc : CodeSystem) :
    (setCodeCaretRules ctx.setProp sd
      (setConcepts
        (setCaretRules ctx.setProp sd ⟨doc, [], []⟩ (caretValueRules fsh))
        (conceptRules fsh))
      (codeCaretRules fsh)).diags.filter isDuplicateIdDiag = [] := by
  obtain ⟨ds1, h1, hf1⟩ := foldl_caretStep_diags ctx.setProp sd
    (resolveSoftIndexing (caretValueRules fsh))
    ⟨doc, [], [ExportEvent.softResolved (resolveSoftIndexing (caretValueRules fsh))]⟩
  obtain ⟨ds2, h2, hf2⟩ := setConcepts_diags
    (setCaretRules ctx.setProp sd ⟨doc, [], []⟩ (caretValueRules fsh)) (conceptRules fsh)
  obtain ⟨ds3, h3, hf3⟩ := foldl_codeCaretStep_diags ctx.setProp sd (codeCaretRules fsh)
    (setConcepts (setCaretRules ctx.setProp sd ⟨doc, [], []⟩ (caretValueRules fsh))
      (conceptRules fsh))
  rw [setCodeCaretRules, h3, List.filter_append, hf3, h2, List.filter_append, hf2]
  have h1' : (setCaretRules ctx.setProp sd ⟨doc, [], []⟩ (caretValueRules fsh)).diags
      = [] ++ ds1 := by
    rw [setCaretRules]
    exact h1
  rw [h1', List.nil_append, hf1]
  rfl

/-- updateCount never changes the document's id. -/
theorem updateCount_id (cs : CodeSystem) (fsh : FshCodeSystem) :
    (updateCount cs fsh).1.id = cs.id := by
  simp only [updateCount]
  split_ifs <;> rfl

/-- updateCount logs no duplicate-id diagnostic. -/
theorem updateCount_diags_nodup (cs : CodeSystem) (fsh : FshCodeSystem) :
    (updateCount cs fsh).2.filter isDuplicateIdDiag = [] := by
  simp only [updateCount]
  split_ifs <;> simp [isDuplicateIdDiag]

/-- The fully reduced form of an export that passes the duplicate-name
guard and finds its schema, naming the pipeline state explicitly. -/
theorem exportCodeSystem_eq (ctx : ExporterCtx) (sd : StructureDefinition) (pkg : Package)
    (fsh : FshCodeSystem) (hf : ctx.fisher = some sd)
    (hn : pkg.codeSystems.any (fun cs => cs.name == some fsh.name) = false) :
    exportCodeSystem ctx pkg fsh =
      (let st3 := setCodeCaretRules ctx.setProp sd
        (setConcepts
          (setCaretRules ctx.setProp sd
            ⟨setMetadata CodeSystem.init fsh ctx, [], []⟩
            (caretValueRules (applyInsertRules fsh)))
          (conceptRules (applyInsertRules fsh)))
        (codeCaretRules (applyInsertRules fsh))
       let st4 := if pkg.codeSystems.any (fun cs => st3.doc.id == cs.id) then
          { st3 with diags := st3.diags ++
              [⟨Severity.error, DiagKind.duplicateId st3.doc.id,
                some (applyInsertRules fsh).sourceInfo⟩] }
        else st3
       Except.ok ⟨⟨pkg.codeSystems ++ [(updateCount st4.doc (applyInsertRules fsh)).1]⟩,
         st4.diags ++ (updateCount st4.doc (applyInsertRules fsh)).2,
         st4.events,
         some (updateCount st4.doc (applyInsertRules fsh)).1⟩) := by
  rw [exportCodeSystem, if_neg (by simp [hn]), hf]

/-- C5 (amended): for every entity export that passes the duplicate-name
guard and finds its schema, every already-exported document remains in the
package and the finished document is appended (no document is ever
removed), and exactly one duplicate-id diagnostic is produced precisely
when the finished document's id — which caret rules may have rewritten
from the entity's declared id — equals the id of an already-exported
document, and none otherwise; in particular, two rule-free entities with
different names and identical declared ids both appear in the package and
exactly one duplicate-id diagnostic is produced while exporting the later
one. -/
theorem duplicate_id_policy :
    (∀ (ctx : ExporterCtx) (sd : StructureDefinition) (pkg : Package) (fsh : FshCodeSystem),
      ctx.fisher = some sd →
      pkg.codeSystems.any (fun cs => cs.name == some fsh.name) = false →
      ∃ d diags evs,
        exportCodeSystem ctx pkg fsh =
          Except.ok ⟨⟨pkg.codeSystems ++ [d]⟩, diags, evs, some d⟩
        ∧ (diags.filter isDuplicateIdDiag).length =
            (if pkg.codeSystems.any (fun cs => d.id == cs.id) then 1 else 0)) ∧
    (∀ (ctx : ExporterCtx) (sd : StructureDefinition) (e1 e2 : FshCodeSystem),
      ctx.fisher = some sd → e1.rules = [] → e2.rules = [] →
      e1.name ≠ e2.name → e1.id = e2.id →
      (exportAll ctx [e1, e2] ⟨[]⟩).1.codeSystems.length = 2 ∧
      ((exportAll ctx [e1, e2] ⟨[]⟩).2.filter isDuplicateIdDiag).length = 1) := by
  constructor
  · intro ctx sd pkg fsh hf hn
    simp only [exportCodeSystem_eq ctx sd pkg fsh hf hn]
    have hpipe := pipeline_diags_nodup ctx sd (applyInsertRules fsh)
      (setMetadata CodeSystem.init fsh ctx)
    generalize hA : setCodeCaretRules ctx.setProp sd
      (setConcepts
        (setCaretRules ctx.setProp sd
          ⟨setMetadata CodeSystem.init fsh ctx, [], []⟩
          (caretValueRules (applyInsertRules fsh)))
        (conceptRules (applyInsertRules fsh)))
      (codeCaretRules (applyInsertRules fsh)) = st3
    rw [hA] at hpipe
    by_cases hdup : pkg.codeSystems.any (fun cs => st3.doc.id == cs.id) = true
    · rw [if_pos hdup]
      refine ⟨(updateCount st3.doc (applyInsertRules fsh)).1,
        (st3.diags ++ [⟨Severity.error, DiagKind.duplicateId st3.doc.id,
          some (applyInsertRules fsh).sourceInfo⟩]) ++
            (updateCount st3.doc (applyInsertRules fsh)).2,
        st3.events, rfl, ?_⟩
      rw [List.filter_append, List.filter_append, hpipe, updateCount_diags_nodup]
      simp only [updateCount_id, hdup]
      simp [isDuplicateIdDiag]
    · rw [if_neg hdup]
      refine ⟨(updateCount st3.doc (applyInsertRules fsh)).1,
        st3.diags ++ (updateCount st3.doc (applyInsertRules fsh)).2,
        st3.events, rfl, ?_⟩
      rw [List.filter_append, hpipe, updateCount_diags_nodup]
      simp only [updateCount_id]
      simp [hdup]
  · intro ctx sd e1 e2 hf h1 h2 hn hid
    have hx1 := export_no_rules ctx sd ⟨[]⟩ e1 hf h1 (by simp)
    have hx2 := export_no_rules ctx sd ⟨[setMetadata CodeSystem.init e1 ctx]⟩ e2 hf h2
      (by simp [setMetadata, hn])
    rw [show ([] : List CodeSystem).any
        (fun cs => (setMetadata CodeSystem.init e1 ctx).id == cs.id) = false from rfl] at hx1
    rw [show ([setMetadata CodeSystem.init e1 ctx]).any
        (fun cs => (setMetadata CodeSystem.init e2 ctx).id == cs.id) = true by
          simp [setMetadata, hid]] at hx2
    simp only [if_true, Bool.false_eq_true, if_false] at hx1 hx2
    rw [exportAll]
    simp only [exportLoop, hx1, List.nil_append, hx2]
    simp [isDuplicateIdDiag]

/-- Witness for C5 (amended): the general conjunct applied to exporting
CS2 against the package already holding CS1, and the rule-free run
conjunct applied to the concrete entities CS1 and CS2 sharing the id
cs-1. -/
theorem duplicate_id_policy_witness :
    (∃ d diags evs,
      exportCodeSystem ctxW pkgW eW2 =
        Except.ok ⟨⟨pkgW.codeSystems ++ [d]⟩, diags, evs, some d⟩
      ∧ (diags.filter isDuplicateIdDiag).length =
          (if pkgW.codeSystems.any (fun cs => d.id == cs.id) then 1 else 0)) ∧
    ((exportAll ctxW [eW1, eW2] ⟨[]⟩).1.codeSystems.length = 2 ∧
     ((exportAll ctxW [eW1, eW2] ⟨[]⟩).2.filter isDuplicateIdDiag).length = 1) :=
  ⟨duplicate_id_policy.1 ctxW sdIdW pkgW eW2 rfl (by decide),
   duplicate_id_policy.2 ctxW sdIdW eW1 eW2 rfl rfl rfl (by decide) rfl⟩

/-- Counterexample for C5: as stated the claim fails on the code.  The
entities eI1 and eI2 have different names and identical declared ids and
are exported in one run; both documents appear in the package, but a
caret rule of the later entity rewrites the document id before the
duplicate-id check, so no duplicate-id diagnostic is produced instead of
exactly one. -/
theorem duplicate_id_counterexample :
    eI1.name ≠ eI2.name ∧ eI1.id = eI2.id ∧
    (exportAll ctxIdW [eI1, eI2] ⟨[]⟩).1.codeSystems.length = 2 ∧
    ((exportAll ctxIdW [eI1, eI2] ⟨[]⟩).2.filter isDuplicateIdDiag).length = 0 :=
  ⟨by decide, rfl, by decide, by decide⟩

/-- Witness for C6: over the three-concept forest, the code path q fails
and only logs; the code path a b translates to concept[0].concept[0]. -/
theorem codeCaret_translation_witness :
    (codeCaretStep (fun d _ _ => d) sdIdW stForestW ccBadW =
      { stForestW with diags := stForestW.diags ++
          [⟨Severity.error, DiagKind.ruleError (ExportError.cannotResolvePath ["q"]),
            some 6⟩] }) ∧
    ((codeCaretStep (fun d _ _ => d) sdIdW stForestW ccOkW).events =
      stForestW.events ++ [ExportEvent.codeCaretApplied (conceptSegs [0, 0] ++ ccOkW.caretPath)] ∧
      locatesOk ccOkW.codePath [0, 0] (stForestW.doc.concept.getD []) = true) :=
  ⟨(codeCaret_translation (fun d _ _ => d) sdIdW stForestW ccBadW).1 rfl,
   (codeCaret_translation (fun d _ _ => d) sdIdW stForestW ccOkW).2 [0, 0] rfl⟩

end Sushi
